import Mathlib

/-!
Shallow embedding of the repository's `src/read.rs` (crate `bitstream-io`):
the `BitRead` operations of the big-endian bit reader `BitReaderBE`.

Modelling conventions:
* the underlying `io::Read` byte source is a `List Nat` of the bytes still
  unread; the reader's `VecDeque<u32>` bit buffer is a `List Nat` (front of
  the deque = head of the list);
* every `&mut self` method becomes a state-passing function
  `BitReaderBE → Except RdError α × BitReaderBE`; the returned state is the
  state of the Rust reader after the call, also when the call fails;
* machine integers are `Nat`/`Int` with explicit wrapping (`% 2 ^ 32`) where
  the Rust `u32`/`i32` arithmetic can wrap, and an explicit `RdError.panicked`
  outcome where the Rust arithmetic overflows (a debug-build panic:
  `u32`/`i32` subtraction overflow, shift amount at least the bit width).
-/

/-- Outcome of a failing reader operation: an I/O error propagated from the
byte source, or an arithmetic-overflow panic of the Rust code itself. -/
inductive RdError where
  | ioError
  | panicked
deriving DecidableEq

/-- The state of a `BitReaderBE<'a>`: the bytes the wrapped `io::Read` source
can still produce, and the buffered bit values of the current byte. -/
structure BitReaderBE where
  reader : List Nat
  buffer : List Nat
deriving DecidableEq

namespace BitReaderBE

/-- `BitReaderBE::new`: wraps a byte source with an empty bit buffer. -/
def new (bytes : List Nat) : BitReaderBE :=
  { reader := bytes, buffer := [] }

/-- The eight bit values `(b >> 7) & 1, …, (b >> 0) & 1` that
`BitReaderBE::next_bit` pushes onto the buffer when it refills. -/
def byteBits (b : Nat) : List Nat :=
  [b >>> 7 &&& 1, b >>> 6 &&& 1, b >>> 5 &&& 1, b >>> 4 &&& 1,
   b >>> 3 &&& 1, b >>> 2 &&& 1, b >>> 1 &&& 1, b >>> 0 &&& 1]

/-- `BitReaderBE::next_bit`: if the buffer is empty, read one byte from the
source (`read_exact` of a 1-byte buffer, an I/O error if no byte remains) and
push its eight bits most-significant-first; then pop the front bit. -/
def next_bit (r : BitReaderBE) : Except RdError Nat × BitReaderBE :=
  match r.buffer with
  | [] =>
    match r.reader with
    | [] => (Except.error RdError.ioError, r)
    | b :: rest =>
      (Except.ok (b >>> 7 &&& 1),
       { reader := rest,
         buffer := [b >>> 6 &&& 1, b >>> 5 &&& 1, b >>> 4 &&& 1,
                    b >>> 3 &&& 1, b >>> 2 &&& 1, b >>> 1 &&& 1,
                    b >>> 0 &&& 1] })
  | x :: xs => (Except.ok x, { reader := r.reader, buffer := xs })

/-- The loop of `BitReaderBE::read`: `while bits > 0 { acc = (acc << 1) |
self.next_bit()?; bits -= 1 }`.  The `u32` accumulator wraps, so the shift is
`2 * acc % 2 ^ 32` and the new bit is or-ed in. -/
def readAux : Nat → Nat → BitReaderBE → Except RdError Nat × BitReaderBE
  | 0, acc, r => (Except.ok acc, r)
  | n + 1, acc, r =>
    match next_bit r with
    | (Except.error e, r') => (Except.error e, r')
    | (Except.ok b, r') => readAux n ((2 * acc % 2 ^ 32) ||| b) r'

/-- `BitReaderBE::read`: accumulates `bits` stream bits most-significant-bit
first into a `u32` starting from 0. -/
def read (bits : Nat) (r : BitReaderBE) : Except RdError Nat × BitReaderBE :=
  readAux bits 0 r

/-- The Rust `u as i32` cast of a `u32` value: two's-complement
reinterpretation. -/
def toI32 (u : Nat) : Int :=
  if u % 2 ^ 32 < 2 ^ 31 then ((u % 2 ^ 32 : Nat) : Int)
  else ((u % 2 ^ 32 : Nat) : Int) - 2 ^ 32

/-- `BitReaderBE::read_signed`: reads `bits` unsigned, then reconstructs the
two's-complement value.  The Rust code computes `u & (1 << (bits - 1))` on
`u32` and, in the negative branch, `-((1 << bits) - (u as i32))` on `i32`;
each spot where that arithmetic overflows in a debug build (the `bits - 1`
underflow for `bits = 0`, a shift amount of 32 or more, `i32` subtraction or
negation overflow) is modelled as `RdError.panicked`. -/
def read_signed (bits : Nat) (r : BitReaderBE) : Except RdError Int × BitReaderBE :=
  match read bits r with
  | (Except.error e, r') => (Except.error e, r')
  | (Except.ok u, r') =>
    if bits = 0 then (Except.error RdError.panicked, r')
    else if 32 ≤ bits - 1 then (Except.error RdError.panicked, r')
    else if u &&& 2 ^ (bits - 1) = 0 then (Except.ok (toI32 u), r')
    else if 32 ≤ bits then (Except.error RdError.panicked, r')
    else
      let shl : Int := toI32 (2 ^ bits)
      let d : Int := shl - toI32 u
      if d < -(2 ^ 31 : Int) ∨ (2 ^ 31 : Int) ≤ d then (Except.error RdError.panicked, r')
      else if (2 ^ 31 : Int) ≤ -d then (Except.error RdError.panicked, r')
      else (Except.ok (-d), r')

/-- `BitReaderBE::skip`: `self.read(bits).map(|_| ())`. -/
def skip (bits : Nat) (r : BitReaderBE) : Except RdError Unit × BitReaderBE :=
  match read bits r with
  | (Except.error e, r') => (Except.error e, r')
  | (Except.ok _, r') => (Except.ok (), r')

/-- `BitReaderBE::byte_aligned`: `self.buffer.is_empty()`. -/
def byte_aligned (r : BitReaderBE) : Bool :=
  r.buffer.isEmpty

/-- `BitReaderBE::byte_align`: `self.buffer.clear()`. -/
def byte_align (r : BitReaderBE) : BitReaderBE :=
  { reader := r.reader, buffer := [] }

/-- Modelled from the spec: the external byte source's bulk read operation
(`io::Read::read_exact`, outside this repository).  Per §6 of the spec it must
"fill this buffer completely with the next N bytes, or fail if fewer than N
remain" — no partial fill, so on failure nothing is consumed or written. -/
def read_exact (n : Nat) (src : List Nat) : Except RdError (List Nat × List Nat) :=
  if n ≤ src.length then Except.ok (src.take n, src.drop n)
  else Except.error RdError.ioError

/-- The `else` branch of `BitReaderBE::read_bytes`: `for b in buf.iter_mut()
{ *b = self.read(8)? as u8; }`.  Returns the outcome, the final contents of
the destination buffer (failed iterations leave the remaining bytes
untouched), and the reader state. -/
def readBytesUnaligned : List Nat → BitReaderBE → Except RdError Unit × List Nat × BitReaderBE
  | [], r => (Except.ok (), [], r)
  | d :: ds, r =>
    match read 8 r with
    | (Except.error e, r') => (Except.error e, d :: ds, r')
    | (Except.ok v, r') =>
      match readBytesUnaligned ds r' with
      | (res, out, r'') => (res, v % 2 ^ 8 :: out, r'')

/-- `BitReaderBE::read_bytes`: byte-aligned readers delegate to
`self.reader.read_exact(buf)`; unaligned readers fill the buffer one
`read(8)` at a time. -/
def read_bytes (buf : List Nat) (r : BitReaderBE) : Except RdError Unit × List Nat × BitReaderBE :=
  if byte_aligned r then
    match read_exact buf.length r.reader with
    | Except.ok (bs, rest) => (Except.ok (), bs, { reader := rest, buffer := r.buffer })
    | Except.error e => (Except.error e, buf, r)
  else readBytesUnaligned buf r

/-- Total number of bit values the reader can still deliver; the termination
measure of the unary-read loops. -/
def totalBits (r : BitReaderBE) : Nat :=
  r.buffer.length + 8 * r.reader.length

/-- `BitReaderBE::read_unary0`: `while self.read(1)? != 0 { acc += 1 }`. -/
def read_unary0 (r : BitReaderBE) : Except RdError Nat × BitReaderBE :=
  match h : read 1 r with
  | (Except.error e, r') => (Except.error e, r')
  | (Except.ok b, r') =>
    if b = 0 then (Except.ok 0, r')
    else
      match read_unary0 r' with
      | (Except.error e, r'') => (Except.error e, r'')
      | (Except.ok n, r'') => (Except.ok (n + 1), r'')
termination_by totalBits r
decreasing_by
  simp only [read, readAux] at h
  rcases hnb : next_bit r with ⟨f, s⟩
  rw [hnb] at h
  rcases f with e | b'
  · exact absurd h (by simp)
  · replace h : (Except.ok (2 * 0 % 2 ^ 32 ||| b'), s) = (Except.ok b, r') := h
    have hr' : r' = s := (Prod.mk.inj h).2.symm
    rw [hr']
    rcases r with ⟨rd, bf⟩
    rcases bf with _ | ⟨x, xs⟩
    · rcases rd with _ | ⟨y, ys⟩
      · exact absurd hnb (by simp [next_bit])
      · have hs : s = { reader := ys, buffer := [y >>> 6 &&& 1, y >>> 5 &&& 1, y >>> 4 &&& 1, y >>> 3 &&& 1, y >>> 2 &&& 1, y >>> 1 &&& 1, y >>> 0 &&& 1] } := by
          have := congrArg Prod.snd hnb
          simpa [next_bit] using this.symm
        subst hs
        simp [totalBits, Nat.mul_succ]
        omega
    · have hs : s = { reader := rd, buffer := xs } := by
        have := congrArg Prod.snd hnb
        simpa [next_bit] using this.symm
      subst hs
      simp [totalBits]

/-- `BitReaderBE::read_unary1`: `while self.read(1)? != 1 { acc += 1 }`. -/
def read_unary1 (r : BitReaderBE) : Except RdError Nat × BitReaderBE :=
  match h : read 1 r with
  | (Except.error e, r') => (Except.error e, r')
  | (Except.ok b, r') =>
    if b = 1 then (Except.ok 0, r')
    else
      match read_unary1 r' with
      | (Except.error e, r'') => (Except.error e, r'')
      | (Except.ok n, r'') => (Except.ok (n + 1), r'')
termination_by totalBits r
decreasing_by
  simp only [read, readAux] at h
  rcases hnb : next_bit r with ⟨f, s⟩
  rw [hnb] at h
  rcases f with e | b'
  · exact absurd h (by simp)
  · replace h : (Except.ok (2 * 0 % 2 ^ 32 ||| b'), s) = (Except.ok b, r') := h
    have hr' : r' = s := (Prod.mk.inj h).2.symm
    rw [hr']
    rcases r with ⟨rd, bf⟩
    rcases bf with _ | ⟨x, xs⟩
    · rcases rd with _ | ⟨y, ys⟩
      · exact absurd hnb (by simp [next_bit])
      · have hs : s = { reader := ys, buffer := [y >>> 6 &&& 1, y >>> 5 &&& 1, y >>> 4 &&& 1, y >>> 3 &&& 1, y >>> 2 &&& 1, y >>> 1 &&& 1, y >>> 0 &&& 1] } := by
          have := congrArg Prod.snd hnb
          simpa [next_bit] using this.symm
        subst hs
        simp [totalBits, Nat.mul_succ]
        omega
    · have hs : s = { reader := rd, buffer := xs } := by
        have := congrArg Prod.snd hnb
        simpa [next_bit] using this.symm
      subst hs
      simp [totalBits]

/-- A sequence of `read` calls with the given bit widths, stopping at the
first failure; drives the alignment-tracking property. -/
def readSeq : List Nat → BitReaderBE → Except RdError Unit × BitReaderBE
  | [], r => (Except.ok (), r)
  | n :: ns, r =>
    match read n r with
    | (Except.error e, r') => (Except.error e, r')
    | (Except.ok _, r') => readSeq ns r'

/-- The bit string a byte sequence denotes: each byte expanded into its bits
from bit 7 down to bit 0, in stream order. -/
def bytesBits : List Nat → List Nat
  | [] => []
  | b :: bs => byteBits b ++ bytesBits bs

/-- All bit values the reader will deliver, in order: the buffered bits
followed by the bits of the unread source bytes. -/
def streamBits (r : BitReaderBE) : List Nat :=
  r.buffer ++ bytesBits r.reader

/-- The unsigned integer a bit string denotes most-significant-bit-first. -/
def msbValue (l : List Nat) : Nat :=
  l.foldl (fun a b => 2 * a + b) 0

/-- Modelled from the spec: the reference procedure C5 compares `read_bytes`
with — "calling read(8) once per destination byte and storing each result",
stopping at the first failure and leaving the remaining bytes untouched. -/
def readBytesPerByte : List Nat → BitReaderBE → Except RdError Unit × List Nat × BitReaderBE
  | [], r => (Except.ok (), [], r)
  | d :: ds, r =>
    match read 8 r with
    | (Except.error e, r') => (Except.error e, d :: ds, r')
    | (Except.ok v, r') =>
      match readBytesPerByte ds r' with
      | (res, out, r'') => (res, v :: out, r'')

/-! Helper lemmas about the embedding. -/

theorem two_mul_lor (m x : Nat) (hx : x < 2) : 2 * m ||| x = 2 * m + x := by
  have hx01 : x = 0 ∨ x = 1 := by omega
  rcases hx01 with rfl | rfl
  · simp
  · have h1 : 2 * m = Nat.bit false m := by simp [Nat.bit_val]
    have h2 : (1 : Nat) = Nat.bit true 0 := rfl
    rw [h1, h2, Nat.lor_bit]
    simp [Nat.bit_val]

theorem byteBits_lt_two {b x : Nat} (h : x ∈ byteBits b) : x < 2 := by
  simp only [byteBits, List.mem_cons, List.not_mem_nil, or_false] at h
  rcases h with rfl | rfl | rfl | rfl | rfl | rfl | rfl | rfl <;>
    simp [Nat.and_one_is_mod] <;> omega

theorem bytesBits_lt_two {bs : List Nat} {x : Nat} (h : x ∈ bytesBits bs) : x < 2 := by
  induction bs with
  | nil => simp [bytesBits] at h
  | cons b t ih =>
    simp only [bytesBits, List.mem_append] at h
    rcases h with h | h
    · exact byteBits_lt_two h
    · exact ih h

theorem bytesBits_length (bs : List Nat) : (bytesBits bs).length = 8 * bs.length := by
  induction bs with
  | nil => simp [bytesBits]
  | cons b t ih => simp [bytesBits, byteBits, ih]; omega

theorem next_bit_cons {r : BitReaderBE} {x : Nat} {t : List Nat}
    (h : streamBits r = x :: t) :
    (next_bit r).1 = Except.ok x ∧ streamBits (next_bit r).2 = t := by
  rcases r with ⟨rd, bf⟩
  rcases bf with _ | ⟨y, ys⟩
  · rcases rd with _ | ⟨b, bs⟩
    · simp [streamBits, bytesBits] at h
    · simp only [streamBits, bytesBits, byteBits, List.nil_append, List.cons_append] at h
      obtain ⟨hx, ht⟩ := List.cons.inj h
      constructor
      · simp [next_bit, hx]
      · simp only [next_bit, streamBits]
        rw [← ht]
        simp
  · simp only [streamBits, List.cons_append] at h
    obtain ⟨hx, ht⟩ := List.cons.inj h
    constructor
    · simp [next_bit, hx]
    · simp only [next_bit, streamBits]
      rw [← ht]

theorem next_bit_nil {r : BitReaderBE} (h : streamBits r = []) :
    next_bit r = (Except.error RdError.ioError, r) := by
  rcases r with ⟨rd, bf⟩
  rcases bf with _ | ⟨y, ys⟩
  · rcases rd with _ | ⟨b, bs⟩
    · simp [next_bit]
    · simp [streamBits, bytesBits, byteBits] at h
  · simp [streamBits] at h

theorem next_bit_inv {r : BitReaderBE} (h : r.buffer.length < 8) :
    (next_bit r).2.buffer.length < 8 := by
  rcases r with ⟨rd, bf⟩
  rcases bf with _ | ⟨y, ys⟩
  · rcases rd with _ | ⟨b, bs⟩
    · simpa [next_bit] using h
    · simp [next_bit]
  · simp only [next_bit]
    simp only [List.length_cons] at h
    simpa using by omega

theorem next_bit_ok_len {r : BitReaderBE} {b : Nat} {s : BitReaderBE}
    (h : next_bit r = (Except.ok b, s)) :
    s.buffer.length % 8 = (r.buffer.length + 7) % 8 := by
  rcases r with ⟨rd, bf⟩
  rcases bf with _ | ⟨y, ys⟩
  · rcases rd with _ | ⟨b', bs⟩
    · exact absurd (congrArg Prod.fst h) (by simp [next_bit])
    · have hs : s = { reader := bs, buffer := [b' >>> 6 &&& 1, b' >>> 5 &&& 1, b' >>> 4 &&& 1, b' >>> 3 &&& 1, b' >>> 2 &&& 1, b' >>> 1 &&& 1, b' >>> 0 &&& 1] } :=
        ((Prod.mk.inj h).2).symm
      simp [hs]
  · have hs : s = { reader := rd, buffer := ys } := ((Prod.mk.inj h).2).symm
    subst hs
    simp only [List.length_cons]
    omega

theorem readAux_inv {n acc : Nat} {r : BitReaderBE} (h : r.buffer.length < 8) :
    (readAux n acc r).2.buffer.length < 8 := by
  induction n generalizing acc r with
  | zero => simpa [readAux]
  | succ n ih =>
    simp only [readAux]
    rcases hnb : next_bit r with ⟨f, s⟩
    have hs : s.buffer.length < 8 := by
      have := next_bit_inv (r := r) h
      rwa [hnb] at this
    rcases f with e | b
    · simpa using hs
    · simpa using ih hs

theorem readAux_ok_len {n acc v : Nat} {r : BitReaderBE}
    (h : (readAux n acc r).1 = Except.ok v) :
    (readAux n acc r).2.buffer.length % 8 = (r.buffer.length + 7 * n) % 8 := by
  induction n generalizing acc r with
  | zero => simp [readAux]
  | succ n ih =>
    simp only [readAux] at h ⊢
    rcases hnb : next_bit r with ⟨f, s⟩
    rw [hnb] at h
    rcases f with e | b
    · exact absurd h (by simp)
    · replace h : (readAux n ((2 * acc % 2 ^ 32) ||| b) s).1 = Except.ok v := h
      have h1 := @ih ((2 * acc % 2 ^ 32) ||| b) s h
      have h2 : s.buffer.length % 8 = (r.buffer.length + 7) % 8 := next_bit_ok_len hnb
      show (readAux n ((2 * acc % 2 ^ 32) ||| b) s).2.buffer.length % 8 = _
      rw [h1]
      omega

theorem readAux_spec {n acc : Nat} {r : BitReaderBE}
    (h : n ≤ (streamBits r).length) :
    (readAux n acc r).1 =
      Except.ok (((streamBits r).take n).foldl (fun a b => (2 * a % 2 ^ 32) ||| b) acc) ∧
    streamBits (readAux n acc r).2 = (streamBits r).drop n := by
  induction n generalizing acc r with
  | zero => simp [readAux]
  | succ n ih =>
    rcases hs : streamBits r with _ | ⟨x, t⟩
    · rw [hs] at h; simp at h
    · obtain ⟨h1, h2⟩ := next_bit_cons hs
      rcases hp : next_bit r with ⟨f, s⟩
      rw [hp] at h1 h2
      replace h1 : f = Except.ok x := h1
      replace h2 : streamBits s = t := h2
      subst h1
      have hlen : n ≤ (streamBits s).length := by
        rw [h2]
        rw [hs] at h
        simp only [List.length_cons] at h
        omega
      obtain ⟨ih1, ih2⟩ := @ih ((2 * acc % 2 ^ 32) ||| x) s hlen
      constructor
      · show (readAux (n + 1) acc r).1 = _
        simp only [readAux, hp]
        rw [ih1, h2]
        simp
      · show streamBits (readAux (n + 1) acc r).2 = _
        simp only [readAux, hp]
        rw [ih2, h2]
        simp

theorem fold_step_plain :
    ∀ (l : List Nat) (acc j : Nat), (∀ x ∈ l, x < 2) → acc < 2 ^ j → j + l.length ≤ 32 →
      l.foldl (fun a b => (2 * a % 2 ^ 32) ||| b) acc = l.foldl (fun a b => 2 * a + b) acc ∧
      l.foldl (fun a b => 2 * a + b) acc < 2 ^ (j + l.length) := by
  intro l
  induction l with
  | nil => intro acc j _ hacc _; simpa using hacc
  | cons x t ih =>
    intro acc j hlt hacc hlen
    have hx : x < 2 := hlt x (by simp)
    have hj : j + 1 ≤ 32 := by simp at hlen; omega
    have hshift : 2 * acc % 2 ^ 32 = 2 * acc := by
      apply Nat.mod_eq_of_lt
      have : (2 : Nat) ^ (j + 1) ≤ 2 ^ 32 := Nat.pow_le_pow_right (by omega) hj
      calc 2 * acc < 2 * 2 ^ j := by omega
        _ = 2 ^ (j + 1) := by rw [Nat.pow_succ]; omega
        _ ≤ 2 ^ 32 := this
    have hacc' : 2 * acc + x < 2 ^ (j + 1) := by
      rw [Nat.pow_succ]
      omega
    have hlen' : (j + 1) + t.length ≤ 32 := by simp at hlen; omega
    obtain ⟨ihe, ihb⟩ := ih (2 * acc + x) (j + 1) (fun y hy => hlt y (by simp [hy])) hacc' hlen'
    constructor
    · simp only [List.foldl_cons, hshift, two_mul_lor acc x hx]
      exact ihe
    · simp only [List.foldl_cons]
      have : (j + 1) + t.length = j + (t.length + 1) := by omega
      rw [this] at ihb
      simpa using ihb

theorem streamBits_new (bytes : List Nat) : streamBits (new bytes) = bytesBits bytes := rfl

theorem read_inv {n : Nat} {r : BitReaderBE} (h : r.buffer.length < 8) :
    (read n r).2.buffer.length < 8 :=
  readAux_inv h

set_option maxRecDepth 10000 in
theorem byteBits_msb :
    ∀ b : Nat, b < 256 → (byteBits b).foldl (fun a c => 2 * a + c) 0 = b := by
  decide

theorem read8_fresh {b : Nat} (rest : List Nat) (hb : b < 256) :
    read 8 { reader := b :: rest, buffer := [] } =
      (Except.ok b, { reader := rest, buffer := [] }) := by
  have hst : streamBits { reader := b :: rest, buffer := [] } = byteBits b ++ bytesBits rest := rfl
  have hlen : 8 ≤ (streamBits { reader := b :: rest, buffer := [] }).length := by
    rw [hst]; simp [byteBits]
  obtain ⟨h1, h2⟩ := @readAux_spec 8 0 { reader := b :: rest, buffer := [] } hlen
  have htake : (streamBits { reader := b :: rest, buffer := [] }).take 8 = byteBits b := rfl
  have hfold := fold_step_plain (byteBits b) 0 0 (fun x hx => byteBits_lt_two hx)
    (by norm_num) (by simp [byteBits])
  have hval : (read 8 { reader := b :: rest, buffer := [] }).1 = Except.ok b := by
    simp only [read] at h1 ⊢
    rw [h1, htake, hfold.1, byteBits_msb b hb]
  have hstate : (read 8 { reader := b :: rest, buffer := [] }).2 =
      { reader := rest, buffer := [] } := rfl
  calc read 8 { reader := b :: rest, buffer := [] }
      = ((read 8 { reader := b :: rest, buffer := [] }).1,
         (read 8 { reader := b :: rest, buffer := [] }).2) := rfl
    _ = (Except.ok b, { reader := rest, buffer := [] }) := by rw [hval, hstate]

theorem read_one_cons {r : BitReaderBE} {x : Nat} {t : List Nat}
    (h : streamBits r = x :: t) :
    read 1 r = (Except.ok x, (next_bit r).2) ∧ streamBits (next_bit r).2 = t := by
  obtain ⟨h1, h2⟩ := next_bit_cons h
  refine ⟨?_, h2⟩
  rcases hp : next_bit r with ⟨f, s⟩
  rw [hp] at h1
  replace h1 : f = Except.ok x := h1
  subst h1
  show readAux 1 0 r = _
  simp only [readAux, hp]
  simp

theorem read_unary0_step {r s : BitReaderBE} {b : Nat} (h : read 1 r = (Except.ok b, s)) :
    read_unary0 r =
      if b = 0 then (Except.ok 0, s)
      else
        match read_unary0 s with
        | (Except.error e, r'') => (Except.error e, r'')
        | (Except.ok n, r'') => (Except.ok (n + 1), r'') := by
  rw [read_unary0]
  split
  next e r' heq =>
    rw [heq] at h
    exact absurd h (by simp)
  next b' r' heq =>
    rw [heq] at h
    obtain ⟨h1, h2⟩ := Prod.mk.inj h
    obtain rfl : b' = b := by simpa using h1
    obtain rfl : r' = s := h2
    rfl

theorem read_unary1_step {r s : BitReaderBE} {b : Nat} (h : read 1 r = (Except.ok b, s)) :
    read_unary1 r =
      if b = 1 then (Except.ok 0, s)
      else
        match read_unary1 s with
        | (Except.error e, r'') => (Except.error e, r'')
        | (Except.ok n, r'') => (Except.ok (n + 1), r'') := by
  rw [read_unary1]
  split
  next e r' heq =>
    rw [heq] at h
    exact absurd h (by simp)
  next b' r' heq =>
    rw [heq] at h
    obtain ⟨h1, h2⟩ := Prod.mk.inj h
    obtain rfl : b' = b := by simpa using h1
    obtain rfl : r' = s := h2
    rfl

theorem read_unary0_spec :
    ∀ (k : Nat) (rest : List Nat) (r : BitReaderBE),
      streamBits r = List.replicate k 1 ++ 0 :: rest →
      (read_unary0 r).1 = Except.ok k ∧ streamBits (read_unary0 r).2 = rest := by
  intro k
  induction k with
  | zero =>
    intro rest r h
    simp only [List.replicate, List.nil_append] at h
    obtain ⟨h1, h2⟩ := read_one_cons h
    rw [read_unary0_step h1, if_pos rfl]
    simpa using h2
  | succ k ih =>
    intro rest r h
    rw [List.replicate_succ, List.cons_append] at h
    obtain ⟨h1, h2⟩ := read_one_cons h
    obtain ⟨ih1, ih2⟩ := ih rest _ h2
    rw [read_unary0_step h1, if_neg Nat.one_ne_zero]
    rcases hu : read_unary0 (next_bit r).2 with ⟨f, s⟩
    rw [hu] at ih1 ih2
    rcases f with e | n
    · simp at ih1
    · replace ih1 : n = k := by simpa using ih1
      subst ih1
      refine ⟨rfl, ?_⟩
      simpa using ih2

theorem read_unary1_spec :
    ∀ (k : Nat) (rest : List Nat) (r : BitReaderBE),
      streamBits r = List.replicate k 0 ++ 1 :: rest →
      (read_unary1 r).1 = Except.ok k ∧ streamBits (read_unary1 r).2 = rest := by
  intro k
  induction k with
  | zero =>
    intro rest r h
    simp only [List.replicate, List.nil_append] at h
    obtain ⟨h1, h2⟩ := read_one_cons h
    rw [read_unary1_step h1, if_pos rfl]
    simpa using h2
  | succ k ih =>
    intro rest r h
    rw [List.replicate_succ, List.cons_append] at h
    obtain ⟨h1, h2⟩ := read_one_cons h
    obtain ⟨ih1, ih2⟩ := ih rest _ h2
    rw [read_unary1_step h1, if_neg Nat.zero_ne_one]
    rcases hu : read_unary1 (next_bit r).2 with ⟨f, s⟩
    rw [hu] at ih1 ih2
    rcases f with e | n
    · simp at ih1
    · replace ih1 : n = k := by simpa using ih1
      subst ih1
      refine ⟨rfl, ?_⟩
      simpa using ih2

theorem read_ok_len {n v : Nat} {r s : BitReaderBE}
    (h : read n r = (Except.ok v, s)) :
    s.buffer.length % 8 = (r.buffer.length + 7 * n) % 8 := by
  have h1 : (readAux n 0 r).1 = Except.ok v := by rw [← read, h]
  have := readAux_ok_len h1
  rwa [← read, h] at this

theorem readSeq_ok_len {ns : List Nat} {r r' : BitReaderBE}
    (h : readSeq ns r = (Except.ok (), r')) :
    r'.buffer.length % 8 = (r.buffer.length + 7 * ns.sum) % 8 := by
  induction ns generalizing r with
  | nil =>
    obtain rfl : r = r' := by simpa [readSeq] using congrArg Prod.snd h
    simp
  | cons n ns ih =>
    simp only [readSeq] at h
    rcases hr : read n r with ⟨f, s⟩
    rw [hr] at h
    rcases f with e | v
    · exact absurd h (by simp)
    · replace h : readSeq ns s = (Except.ok (), r') := h
      have hs : s.buffer.length % 8 = (r.buffer.length + 7 * n) % 8 := read_ok_len hr
      have := ih h
      simp only [List.sum_cons]
      omega

theorem readSeq_inv {ns : List Nat} {r : BitReaderBE} (h : r.buffer.length < 8) :
    (readSeq ns r).2.buffer.length < 8 := by
  induction ns generalizing r with
  | nil => simpa [readSeq]
  | cons n ns ih =>
    simp only [readSeq]
    rcases hr : read n r with ⟨f, s⟩
    have hs : s.buffer.length < 8 := by
      have := read_inv (n := n) h
      rwa [hr] at this
    rcases f with e | v
    · simpa using hs
    · simpa using ih hs

theorem read_signed_state (bits : Nat) (r : BitReaderBE) :
    (read_signed bits r).2 = (read bits r).2 := by
  rcases hr : read bits r with ⟨f, s⟩
  rcases f with e | u <;>
    simp only [read_signed, hr] <;> split_ifs <;> rfl

theorem skip_state (bits : Nat) (r : BitReaderBE) :
    (skip bits r).2 = (read bits r).2 := by
  rcases hr : read bits r with ⟨f, s⟩
  rcases f with e | u <;> simp [skip, hr]

theorem readBytesUnaligned_inv {buf : List Nat} {r : BitReaderBE}
    (h : r.buffer.length < 8) :
    (readBytesUnaligned buf r).2.2.buffer.length < 8 := by
  induction buf generalizing r with
  | nil => simpa [readBytesUnaligned]
  | cons d ds ih =>
    simp only [readBytesUnaligned]
    rcases hr : read 8 r with ⟨f, s⟩
    have hs : s.buffer.length < 8 := by
      have := read_inv (n := 8) h
      rwa [hr] at this
    rcases f with e | v
    · simpa using hs
    · have := ih (r := s) hs
      show ((readBytesUnaligned ds s).1, v % 2 ^ 8 :: (readBytesUnaligned ds s).2.1,
            (readBytesUnaligned ds s).2.2).2.2.buffer.length < 8
      simpa using this

theorem readBytesUnaligned_length :
    ∀ (buf : List Nat) (r : BitReaderBE),
      (readBytesUnaligned buf r).2.1.length = buf.length := by
  intro buf
  induction buf with
  | nil => intro r; simp [readBytesUnaligned]
  | cons d ds ih =>
    intro r
    simp only [readBytesUnaligned]
    rcases hr : read 8 r with ⟨f, s⟩
    rcases f with e | v
    · simp
    · have := ih s
      show ((readBytesUnaligned ds s).1, v % 2 ^ 8 :: (readBytesUnaligned ds s).2.1,
            (readBytesUnaligned ds s).2.2).2.1.length = (d :: ds).length
      simpa using this

theorem readBytesUnaligned_ok_append {xs : List Nat} :
    ∀ {ys : List Nat} {r : BitReaderBE} {out : List Nat} {r1 : BitReaderBE},
      readBytesUnaligned xs r = (Except.ok (), out, r1) →
      readBytesUnaligned (xs ++ ys) r =
        ((readBytesUnaligned ys r1).1, out ++ (readBytesUnaligned ys r1).2.1,
         (readBytesUnaligned ys r1).2.2) := by
  induction xs with
  | nil =>
    intro ys r out r1 h
    obtain ⟨h1, h2⟩ := Prod.mk.inj h
    obtain ⟨h3, h4⟩ := Prod.mk.inj h2
    subst h3; subst h4
    simp
  | cons d ds ih =>
    intro ys r out r1 h
    simp only [readBytesUnaligned] at h
    rcases hr : read 8 r with ⟨f, s⟩
    rw [hr] at h
    rcases f with e | v
    · exact absurd (congrArg (Prod.fst) h) (by simp)
    · replace h : ((readBytesUnaligned ds s).1, v % 2 ^ 8 :: (readBytesUnaligned ds s).2.1,
          (readBytesUnaligned ds s).2.2) = (Except.ok (), out, r1) := h
      obtain ⟨h1, h2⟩ := Prod.mk.inj h
      obtain ⟨h3, h4⟩ := Prod.mk.inj h2
      have hok : readBytesUnaligned ds s =
          (Except.ok (), (readBytesUnaligned ds s).2.1, (readBytesUnaligned ds s).2.2) := by
        calc readBytesUnaligned ds s
            = ((readBytesUnaligned ds s).1, (readBytesUnaligned ds s).2.1,
               (readBytesUnaligned ds s).2.2) := rfl
          _ = _ := by rw [h1]
      have hih := @ih ys s (readBytesUnaligned ds s).2.1 (readBytesUnaligned ds s).2.2 hok
      show readBytesUnaligned (d :: (ds ++ ys)) r = _
      have hunf : readBytesUnaligned (d :: (ds ++ ys)) r =
          ((readBytesUnaligned (ds ++ ys) s).1,
           v % 2 ^ 8 :: (readBytesUnaligned (ds ++ ys) s).2.1,
           (readBytesUnaligned (ds ++ ys) s).2.2) := by
        simp only [readBytesUnaligned, hr]
      rw [hunf, hih]
      rw [← h3, ← h4]
      simp

theorem next_bit_ok_lt {r : BitReaderBE} {b : Nat} {s : BitReaderBE}
    (h : next_bit r = (Except.ok b, s)) : totalBits s < totalBits r := by
  rcases r with ⟨rd, bf⟩
  rcases bf with _ | ⟨y, ys⟩
  · rcases rd with _ | ⟨b', bs⟩
    · exact absurd (congrArg Prod.fst h) (by simp [next_bit])
    · have hs : s = { reader := bs, buffer := [b' >>> 6 &&& 1, b' >>> 5 &&& 1, b' >>> 4 &&& 1, b' >>> 3 &&& 1, b' >>> 2 &&& 1, b' >>> 1 &&& 1, b' >>> 0 &&& 1] } :=
        ((Prod.mk.inj h).2).symm
      subst hs
      simp [totalBits, Nat.mul_succ]
      omega
  · have hs : s = { reader := rd, buffer := ys } := ((Prod.mk.inj h).2).symm
    subst hs
    simp [totalBits]

theorem read_unary0_of_err {r s : BitReaderBE} {e : RdError}
    (h : read 1 r = (Except.error e, s)) :
    read_unary0 r = (Except.error e, s) := by
  rw [read_unary0]
  split
  next e' r' heq =>
    rw [heq] at h
    exact h
  next b' r' heq =>
    rw [heq] at h
    exact absurd h (by simp)

theorem read_unary1_of_err {r s : BitReaderBE} {e : RdError}
    (h : read 1 r = (Except.error e, s)) :
    read_unary1 r = (Except.error e, s) := by
  rw [read_unary1]
  split
  next e' r' heq =>
    rw [heq] at h
    exact h
  next b' r' heq =>
    rw [heq] at h
    exact absurd h (by simp)

theorem read_unary0_inv {r : BitReaderBE} (h : r.buffer.length < 8) :
    (read_unary0 r).2.buffer.length < 8 := by
  have main : ∀ (N : Nat) (r : BitReaderBE), totalBits r ≤ N → r.buffer.length < 8 →
      (read_unary0 r).2.buffer.length < 8 := by
    intro N
    induction N with
    | zero =>
      intro r hN hr
      have hbuf : r.buffer = [] := by
        rcases hb : r.buffer with _ | ⟨x, xs⟩
        · rfl
        · exfalso; simp [totalBits, hb] at hN
      have hrd : r.reader = [] := by
        rcases hd : r.reader with _ | ⟨y, ys⟩
        · rfl
        · exfalso; simp [totalBits, hd] at hN
      have h1 : read 1 r = (Except.error RdError.ioError, r) := by
        show readAux 1 0 r = _
        simp only [readAux]
        rw [next_bit_nil (by simp [streamBits, hbuf, hrd, bytesBits])]
      rw [read_unary0_of_err h1]
      simpa [hbuf]
    | succ N ih =>
      intro r hN hr
      rcases h1 : read 1 r with ⟨f, s⟩
      have hs : s.buffer.length < 8 := by
        have := read_inv (n := 1) (r := r) hr
        rwa [h1] at this
      rcases f with e | b
      · rw [read_unary0_of_err h1]
        exact hs
      · rw [read_unary0_step h1]
        by_cases hb : b = 0
        · simpa [hb] using hs
        · rw [if_neg hb]
          have hlt : totalBits s ≤ N := by
            have hdec : totalBits s < totalBits r := by
              rcases hnb : next_bit r with ⟨f2, s2⟩
              simp only [read, readAux, hnb] at h1
              rcases f2 with e2 | b2
              · exact absurd h1 (by simp)
              · replace h1 : readAux 0 ((2 * 0 % 2 ^ 32) ||| b2) s2 = (Except.ok b, s) := h1
                simp only [readAux] at h1
                obtain ⟨hh1, hh2⟩ := Prod.mk.inj h1
                subst hh2
                exact next_bit_ok_lt hnb
            omega
          have := ih s hlt hs
          rcases hu : read_unary0 s with ⟨f2, s2⟩
          rw [hu] at this
          rcases f2 with e2 | n2 <;> simpa using this
  exact main (totalBits r) r (le_refl _) h

theorem read_unary1_inv {r : BitReaderBE} (h : r.buffer.length < 8) :
    (read_unary1 r).2.buffer.length < 8 := by
  have main : ∀ (N : Nat) (r : BitReaderBE), totalBits r ≤ N → r.buffer.length < 8 →
      (read_unary1 r).2.buffer.length < 8 := by
    intro N
    induction N with
    | zero =>
      intro r hN hr
      have hbuf : r.buffer = [] := by
        rcases hb : r.buffer with _ | ⟨x, xs⟩
        · rfl
        · exfalso; simp [totalBits, hb] at hN
      have hrd : r.reader = [] := by
        rcases hd : r.reader with _ | ⟨y, ys⟩
        · rfl
        · exfalso; simp [totalBits, hd] at hN
      have h1 : read 1 r = (Except.error RdError.ioError, r) := by
        show readAux 1 0 r = _
        simp only [readAux]
        rw [next_bit_nil (by simp [streamBits, hbuf, hrd, bytesBits])]
      rw [read_unary1_of_err h1]
      simpa [hbuf]
    | succ N ih =>
      intro r hN hr
      rcases h1 : read 1 r with ⟨f, s⟩
      have hs : s.buffer.length < 8 := by
        have := read_inv (n := 1) (r := r) hr
        rwa [h1] at this
      rcases f with e | b
      · rw [read_unary1_of_err h1]
        exact hs
      · rw [read_unary1_step h1]
        by_cases hb : b = 1
        · simpa [hb] using hs
        · rw [if_neg hb]
          have hlt : totalBits s ≤ N := by
            have hdec : totalBits s < totalBits r := by
              rcases hnb : next_bit r with ⟨f2, s2⟩
              simp only [read, readAux, hnb] at h1
              rcases f2 with e2 | b2
              · exact absurd h1 (by simp)
              · replace h1 : readAux 0 ((2 * 0 % 2 ^ 32) ||| b2) s2 = (Except.ok b, s) := h1
                simp only [readAux] at h1
                obtain ⟨hh1, hh2⟩ := Prod.mk.inj h1
                subst hh2
                exact next_bit_ok_lt hnb
            omega
          have := ih s hlt hs
          rcases hu : read_unary1 s with ⟨f2, s2⟩
          rw [hu] at this
          rcases f2 with e2 | n2 <;> simpa using this
  exact main (totalBits r) r (le_refl _) h

theorem read_value_fresh {b : Nat} {bytes : List Nat} (h2 : b ≤ 32)
    (h3 : b ≤ 8 * bytes.length) :
    (read b (new bytes)).1 = Except.ok (msbValue ((bytesBits bytes).take b)) := by
  have hlen : b ≤ (streamBits (new bytes)).length := by
    rw [streamBits_new, bytesBits_length]; exact h3
  obtain ⟨h1, h4⟩ := @readAux_spec b 0 (new bytes) hlen
  have hmem : ∀ x ∈ (streamBits (new bytes)).take b, x < 2 := by
    intro x hx
    rw [streamBits_new] at hx
    exact bytesBits_lt_two (List.mem_of_mem_take hx)
  have hlen32 : 0 + ((streamBits (new bytes)).take b).length ≤ 32 := by
    have := List.length_take_le b (streamBits (new bytes))
    omega
  have hfold := fold_step_plain ((streamBits (new bytes)).take b) 0 0 hmem (by norm_num) hlen32
  show (readAux b 0 (new bytes)).1 = _
  rw [h1, hfold.1, streamBits_new]
  rfl

theorem readBytesPerByte_aligned :
    ∀ (buf src : List Nat), buf.length ≤ src.length → (∀ b ∈ src, b < 256) →
      readBytesPerByte buf { reader := src, buffer := [] } =
        (Except.ok (), src.take buf.length,
         { reader := src.drop buf.length, buffer := [] }) := by
  intro buf
  induction buf with
  | nil => intro src _ _; simp [readBytesPerByte]
  | cons d ds ih =>
    intro src hlen hlt
    rcases src with _ | ⟨b, bs⟩
    · simp at hlen
    · have hb : b < 256 := hlt b (by simp)
      have h8 : read 8 { reader := b :: bs, buffer := [] } =
          (Except.ok b, { reader := bs, buffer := [] }) := read8_fresh bs hb
      have hds := ih bs (by simpa using hlen) (fun x hx => hlt x (by simp [hx]))
      show readBytesPerByte (d :: ds) { reader := b :: bs, buffer := [] } = _
      simp only [readBytesPerByte, h8, hds]
      simp

theorem read_bytes_aligned_ok {buf src : List Nat} (hlen : buf.length ≤ src.length) :
    read_bytes buf { reader := src, buffer := [] } =
      (Except.ok (), src.take buf.length,
       { reader := src.drop buf.length, buffer := [] }) := by
  simp [read_bytes, byte_aligned, read_exact, hlen]

/-! Claim theorems. -/

/-- C1: for every bit width `b` with `1 ≤ b ≤ 32` and every byte sequence able
to supply `b` bits, `read(b)` returns the unsigned integer formed
most-significant-bit-first from the next `b` bits of the stream, each byte
expanded into its bits from bit 7 down to bit 0 and consumed in that order. -/
theorem read_msb_first (bytes : List Nat) (b : Nat) (h1 : 1 ≤ b) (h2 : b ≤ 32)
    (h3 : b ≤ 8 * bytes.length) :
    (read b (new bytes)).1 = Except.ok (msbValue ((bytesBits bytes).take b)) :=
  read_value_fresh h2 h3

theorem read_msb_first_witness :
    1 ≤ 4 ∧ 4 ≤ 32 ∧ 4 ≤ 8 * ([180] : List Nat).length ∧
    (read 4 (new [180])).1 = Except.ok (msbValue ((bytesBits [180]).take 4)) ∧
    msbValue ((bytesBits [180]).take 4) = 11 :=
  ⟨by decide, by decide, by decide,
   read_msb_first [180] 4 (by decide) (by decide) (by decide), by decide⟩

/-- C2: the claim fails at width 32.  `read(32)` over the source bytes
0x80 0x00 0x00 0x00 succeeds with `u = 2^31`, whose bit 31 is 1, so the claim
demands `read_signed(32) = u − 2^32 = −2^31`; but the Rust negative branch
computes `-((1 << bits) - (u as i32))` with `1` of type `i32`, and the shift
amount 32 equals the i32 width — an overflow panic in debug builds (release
builds mask the shift and return `2^31 − 1` instead of `−2^31`).  The model
evaluates to the panic outcome at that input. -/
theorem read_signed_width32_bug :
    (read 32 (new [128, 0, 0, 0])).1 = Except.ok 2147483648 ∧
    read_signed 32 (new [128, 0, 0, 0]) = (Except.error RdError.panicked, new []) :=
  ⟨by rfl, by rfl⟩

/-- C3 counterexample: after `read(6)` from the one-byte source 0xFE the
reader holds two buffered bits and the source is exhausted; `read(3)` then
fails with the I/O error kind, yet `byte_aligned()` flips from false to true,
so a failed read does not leave the aligned status unchanged for every prior
buffer state. -/
theorem failed_read_changes_alignment :
    (read 3 (read 6 (new [254])).2).1 = Except.error RdError.ioError ∧
    byte_aligned (read 6 (new [254])).2 = false ∧
    byte_aligned (read 3 (read 6 (new [254])).2).2 = true :=
  ⟨by rfl, by rfl, by rfl⟩

/-- C3 amended: when the underlying source is exhausted and the reader is
byte-aligned (no buffered bits), every read operation that needs at least one
bit — `read`, `read_signed` and `skip` with a positive width, `read_bytes`
with a nonempty destination, and both unary reads — fails with the I/O error
kind and leaves the reader state unchanged; consequently `byte_aligned()` is
unchanged by any `read` call from such a state. -/
theorem exhausted_aligned_reads_fail_cleanly (r : BitReaderBE)
    (hal : byte_aligned r = true) (hex : r.reader = []) :
    (∀ b, 1 ≤ b →
      read b r = (Except.error RdError.ioError, r) ∧
      read_signed b r = (Except.error RdError.ioError, r) ∧
      skip b r = (Except.error RdError.ioError, r)) ∧
    (∀ d ds, read_bytes (d :: ds) r = (Except.error RdError.ioError, d :: ds, r)) ∧
    read_unary0 r = (Except.error RdError.ioError, r) ∧
    read_unary1 r = (Except.error RdError.ioError, r) ∧
    (∀ b, byte_aligned (read b r).2 = byte_aligned r) := by
  rcases r with ⟨rd, bf⟩
  have hbf : bf = [] := by simpa [byte_aligned] using hal
  simp only at hex
  subst hbf; subst hex
  have hread : ∀ n, read (n + 1) { reader := [], buffer := [] } =
      (Except.error RdError.ioError, { reader := [], buffer := [] }) := fun n => rfl
  refine ⟨?_, ?_, ?_, ?_, ?_⟩
  · intro b hb
    obtain ⟨n, rfl⟩ : ∃ n, b = n + 1 := ⟨b - 1, by omega⟩
    refine ⟨hread n, ?_, ?_⟩
    · simp [read_signed, hread n]
    · simp [skip, hread n]
  · intro d ds
    simp [read_bytes, byte_aligned, read_exact]
  · exact read_unary0_of_err (hread 0)
  · exact read_unary1_of_err (hread 0)
  · intro b
    rcases b with _ | n
    · rfl
    · rw [hread n]

theorem exhausted_aligned_reads_fail_cleanly_witness :
    byte_aligned (new []) = true ∧
    read 2 (new []) = (Except.error RdError.ioError, new []) ∧
    read_bytes [7] (new []) = (Except.error RdError.ioError, [7], new []) ∧
    read_unary0 (new []) = (Except.error RdError.ioError, new []) := by
  have h := exhausted_aligned_reads_fail_cleanly (new []) (by rfl) (by rfl)
  exact ⟨by rfl, (h.1 2 (by omega)).1, h.2.1 7 [], h.2.2.1⟩

/-- C4: `skip(n)` is observably equivalent to `read(n)` with the result
discarded: it leaves the reader in the same state, succeeds exactly when
`read(n)` succeeds, and fails with the same error exactly when `read(n)`
fails with that error. -/
theorem skip_equiv_read (bits : Nat) (r : BitReaderBE) :
    (skip bits r).2 = (read bits r).2 ∧
    ((skip bits r).1 = Except.ok () ↔ ∃ v, (read bits r).1 = Except.ok v) ∧
    (∀ e, (skip bits r).1 = Except.error e ↔ (read bits r).1 = Except.error e) := by
  rcases hr : read bits r with ⟨f, s⟩
  rcases f with e | v <;> simp [skip, hr]

/-- C5 counterexample: a byte-aligned reader over the single byte 5 with a
two-byte destination.  `read_bytes` takes the `read_exact` fast path, which
per the spec's source contract is all-or-nothing: the destination keeps its
old contents [9, 9] and the source byte stays unread; the read(8)-per-byte
reference instead stores the decoded 5 into the first slot and drains the
source.  Both fail, but destination contents and resulting states differ, so
the claimed equivalence does not hold for every input. -/
theorem read_bytes_fast_path_divergence :
    byte_aligned (new [5]) = true ∧
    (read_bytes [9, 9] (new [5])).2.1 = [9, 9] ∧
    (readBytesPerByte [9, 9] (new [5])).2.1 = [5, 9] ∧
    (read_bytes [9, 9] (new [5])).2.2 = new [5] ∧
    (readBytesPerByte [9, 9] (new [5])).2.2 = { reader := [], buffer := [] } :=
  ⟨rfl, rfl, rfl, rfl, rfl⟩

/-- C5 amended: when the reader is byte-aligned, the source bytes are genuine
bytes (below 256) and the source can supply every requested byte, `read_bytes`
produces exactly the outcome, destination contents and resulting reader state
of calling `read(8)` once per destination byte and storing each result; when
the source is too short both paths fail with the I/O error kind, but the
failure-case destination contents and state may differ. -/
theorem read_bytes_aligned_success_equiv (buf : List Nat) (r : BitReaderBE)
    (hal : byte_aligned r = true) (hbytes : ∀ b ∈ r.reader, b < 256)
    (hlen : buf.length ≤ r.reader.length) :
    read_bytes buf r = readBytesPerByte buf r := by
  rcases r with ⟨rd, bf⟩
  have hbf : bf = [] := by simpa [byte_aligned] using hal
  subst hbf
  simp only at hbytes hlen
  rw [@read_bytes_aligned_ok buf rd hlen, readBytesPerByte_aligned buf rd hlen hbytes]

theorem read_bytes_aligned_success_equiv_witness :
    byte_aligned (new [5, 6]) = true ∧
    read_bytes [9, 9] (new [5, 6]) = readBytesPerByte [9, 9] (new [5, 6]) ∧
    read_bytes [9, 9] (new [5, 6]) =
      (Except.ok (), [5, 6], { reader := [], buffer := [] }) := by
  refine ⟨rfl, read_bytes_aligned_success_equiv [9, 9] (new [5, 6]) rfl (by decide) (by decide),
    by rfl⟩

/-- C6: over an upcoming bit sequence of k one-bits followed by a zero bit,
`read_unary0()` returns k having consumed exactly those k+1 bits (the stop bit
consumed but not counted); symmetrically `read_unary1()` returns k over k
zero-bits followed by a one.  The witness instantiates the spec's examples:
bits 1,1,1,0,… give 3 and bits 0,0,1,… give 2. -/
theorem unary_counts (k : Nat) (rest : List Nat) (r : BitReaderBE) :
    (streamBits r = List.replicate k 1 ++ 0 :: rest →
      (read_unary0 r).1 = Except.ok k ∧ streamBits (read_unary0 r).2 = rest) ∧
    (streamBits r = List.replicate k 0 ++ 1 :: rest →
      (read_unary1 r).1 = Except.ok k ∧ streamBits (read_unary1 r).2 = rest) :=
  ⟨read_unary0_spec k rest r, read_unary1_spec k rest r⟩

theorem unary_counts_witness :
    (read_unary0 (new [234])).1 = Except.ok 3 ∧
    (read_unary1 (new [42])).1 = Except.ok 2 :=
  ⟨((unary_counts 3 [1, 0, 1, 0] (new [234])).1 (by decide)).1,
   ((unary_counts 2 [0, 1, 0, 1, 0] (new [42])).2 (by decide)).1⟩

/-- C7: `byte_aligned()` is true immediately after construction and
immediately after `byte_align()` from any prior state; and after any sequence
of successful `read`s from a fresh reader it is true exactly when the total
number of bits consumed is a multiple of 8, false otherwise. -/
theorem alignment_tracking :
    (∀ bytes, byte_aligned (new bytes) = true) ∧
    (∀ r, byte_aligned (byte_align r) = true) ∧
    (∀ bytes ns r', readSeq ns (new bytes) = (Except.ok (), r') →
      (byte_aligned r' = true ↔ ns.sum % 8 = 0)) := by
  refine ⟨fun bytes => rfl, fun r => rfl, ?_⟩
  intro bytes ns r' h
  have hlen : r'.buffer.length % 8 = ((new bytes).buffer.length + 7 * ns.sum) % 8 :=
    readSeq_ok_len h
  have hinv : r'.buffer.length < 8 := by
    have := @readSeq_inv ns (new bytes) (by simp [new])
    rwa [h] at this
  simp only [new, List.length_nil, Nat.zero_add] at hlen
  have hiff : byte_aligned r' = true ↔ r'.buffer = [] := by
    simp [byte_aligned, List.isEmpty_iff]
  rw [hiff]
  constructor
  · intro hb
    rw [hb] at hlen
    simp only [List.length_nil] at hlen
    omega
  · intro hs
    have hlen0 : r'.buffer.length = 0 := by omega
    exact List.length_eq_zero.mp hlen0

theorem alignment_tracking_witness :
    readSeq [3, 5] (new [180]) = (Except.ok (), { reader := [], buffer := [] }) ∧
    ([3, 5] : List Nat).sum % 8 = 0 ∧
    byte_aligned (readSeq [3, 5] (new [180])).2 = true := by
  refine ⟨by rfl, by decide, ?_⟩
  exact (alignment_tracking.2.2 [180] [3, 5] { reader := [], buffer := [] } (by rfl)).2
    (by decide)

/-- C8: the bit buffer holds fewer than 8 entries at construction and after
every public operation (given it did before); a refill happens only when the
buffer is empty and is all-or-nothing: with a byte available it delivers
exactly the eight bits of that one fresh byte most-significant-first (the
returned bit followed by the seven newly buffered ones), with the source
exhausted it fails without changing anything, and with a nonempty buffer the
source is never touched. -/
theorem buffer_invariants :
    (∀ bytes, (new bytes).buffer.length < 8) ∧
    (∀ r n, r.buffer.length < 8 →
      (read n r).2.buffer.length < 8 ∧
      (read_signed n r).2.buffer.length < 8 ∧
      (skip n r).2.buffer.length < 8) ∧
    (∀ r buf, r.buffer.length < 8 → (read_bytes buf r).2.2.buffer.length < 8) ∧
    (∀ r, r.buffer.length < 8 →
      (read_unary0 r).2.buffer.length < 8 ∧
      (read_unary1 r).2.buffer.length < 8 ∧
      (byte_align r).buffer.length < 8) ∧
    (∀ r b rest, r.buffer = [] → r.reader = b :: rest →
      (next_bit r).1 = Except.ok (b >>> 7 &&& 1) ∧
      (next_bit r).2.reader = rest ∧
      (b >>> 7 &&& 1) :: (next_bit r).2.buffer = byteBits b) ∧
    (∀ r, r.buffer = [] → r.reader = [] →
      next_bit r = (Except.error RdError.ioError, r)) ∧
    (∀ r x xs, r.buffer = x :: xs →
      next_bit r = (Except.ok x, { reader := r.reader, buffer := xs })) := by
  refine ⟨fun bytes => by simp [new], ?_, ?_, ?_, ?_, ?_, ?_⟩
  · intro r n h
    refine ⟨read_inv h, ?_, ?_⟩
    · rw [read_signed_state]; exact read_inv h
    · rw [skip_state]; exact read_inv h
  · intro r buf h
    by_cases hal : byte_aligned r = true
    · rcases hre : read_exact buf.length r.reader with e | ⟨bs, rest⟩ <;>
        simp [read_bytes, hal, hre, h]
    · have hal' : byte_aligned r = false := by
        rcases hb : byte_aligned r
        · rfl
        · exact absurd hb hal
      simp only [read_bytes, hal', Bool.false_eq_true, if_false]
      exact readBytesUnaligned_inv h
  · intro r h
    exact ⟨read_unary0_inv h, read_unary1_inv h, by simp [byte_align]⟩
  · intro r b rest hbuf hrd
    rcases r with ⟨rd, bf⟩
    simp only at hbuf hrd
    subst hbuf; subst hrd
    exact ⟨rfl, rfl, rfl⟩
  · intro r hbuf hrd
    rcases r with ⟨rd, bf⟩
    simp only at hbuf hrd
    subst hbuf; subst hrd
    rfl
  · intro r x xs hbuf
    rcases r with ⟨rd, bf⟩
    simp only at hbuf
    subst hbuf
    rfl

theorem buffer_invariants_witness :
    (read 3 (new [180])).2.buffer.length < 8 ∧
    (next_bit (new [5])).1 = Except.ok (5 >>> 7 &&& 1) ∧
    (5 >>> 7 &&& 1) :: (next_bit (new [5])).2.buffer = byteBits 5 := by
  have h := buffer_invariants
  exact ⟨(h.2.1 (new [180]) 3 (by decide)).1,
    (h.2.2.2.2.1 (new [5]) 5 [] rfl rfl).1,
    (h.2.2.2.2.1 (new [5]) 5 [] rfl rfl).2.2⟩

/-- C9: `read(0)` returns Ok(0) from any state without touching the source or
changing the reader; `read_signed(0)` never returns a value — its `bits - 1`
bit-position computation underflows `u32` (the modelled panic outcome), shown
here at the empty source. -/
theorem read_zero_and_signed_zero :
    (∀ r, read 0 r = (Except.ok 0, r)) ∧
    read_signed 0 (new []) = (Except.error RdError.panicked, new []) :=
  ⟨fun r => rfl, by rfl⟩

/-- C10: on the non-byte-aligned path of `read_bytes`, a partial fill is
observable on failure: if the reads for the first k destination bytes succeed
and the next `read(8)` fails, the call returns that error with the first k
destination bytes overwritten by the decoded values, the remaining bytes
unchanged, and the reader left in the failed read's state. -/
theorem read_bytes_unaligned_partial_fill (r : BitReaderBE) (buf : List Nat)
    (k : Nat) (e : RdError)
    (hal : byte_aligned r = false) (hk : k < buf.length)
    (hok : (readBytesUnaligned (buf.take k) r).1 = Except.ok ())
    (hfail : (read 8 (readBytesUnaligned (buf.take k) r).2.2).1 = Except.error e) :
    read_bytes buf r =
      (Except.error e,
       (readBytesUnaligned (buf.take k) r).2.1 ++ buf.drop k,
       (read 8 (readBytesUnaligned (buf.take k) r).2.2).2) ∧
    (readBytesUnaligned (buf.take k) r).2.1.length = k := by
  have hokeq : readBytesUnaligned (buf.take k) r =
      (Except.ok (), (readBytesUnaligned (buf.take k) r).2.1,
       (readBytesUnaligned (buf.take k) r).2.2) := by
    calc readBytesUnaligned (buf.take k) r
        = ((readBytesUnaligned (buf.take k) r).1, (readBytesUnaligned (buf.take k) r).2.1,
           (readBytesUnaligned (buf.take k) r).2.2) := rfl
      _ = _ := by rw [hok]
  have hfaileq : read 8 (readBytesUnaligned (buf.take k) r).2.2 =
      (Except.error e, (read 8 (readBytesUnaligned (buf.take k) r).2.2).2) := by
    calc read 8 (readBytesUnaligned (buf.take k) r).2.2
        = ((read 8 (readBytesUnaligned (buf.take k) r).2.2).1,
           (read 8 (readBytesUnaligned (buf.take k) r).2.2).2) := rfl
      _ = _ := by rw [hfail]
  obtain ⟨d, ds, hd⟩ : ∃ d ds, buf.drop k = d :: ds := by
    rcases hdrop : buf.drop k with _ | ⟨d, ds⟩
    · exfalso
      have := List.drop_eq_nil_iff_le.mp hdrop
      omega
    · exact ⟨d, ds, rfl⟩
  have hsplit : buf = buf.take k ++ buf.drop k := (List.take_append_drop k buf).symm
  have hrb : read_bytes buf r = readBytesUnaligned buf r := by
    simp only [read_bytes, hal, Bool.false_eq_true, if_false]
  have happ := @readBytesUnaligned_ok_append (buf.take k) (buf.drop k) r _ _ hokeq
  have hstep : readBytesUnaligned (buf.drop k) (readBytesUnaligned (buf.take k) r).2.2 =
      (Except.error e, d :: ds, (read 8 (readBytesUnaligned (buf.take k) r).2.2).2) := by
    rw [hd]
    rcases h8 : read 8 (readBytesUnaligned (buf.take k) r).2.2 with ⟨f, s⟩
    rw [h8] at hfail
    replace hfail : f = Except.error e := hfail
    subst hfail
    simp only [readBytesUnaligned, h8]
  constructor
  · rw [hrb]
    conv_lhs => rw [hsplit]
    rw [happ, hstep, ← hd]
  · rw [readBytesUnaligned_length]
    rw [List.length_take]
    omega

theorem read_bytes_unaligned_partial_fill_witness :
    byte_aligned (read 3 (new [160, 77])).2 = false ∧
    read_bytes [9, 9, 9] (read 3 (new [160, 77])).2 =
      (Except.error RdError.ioError, [2, 9, 9], { reader := [], buffer := [] }) := by
  have h := read_bytes_unaligned_partial_fill ((read 3 (new [160, 77])).2) [9, 9, 9] 1
    RdError.ioError (by rfl) (by decide) (by rfl) (by rfl)
  exact ⟨by rfl, by rw [h.1]; rfl⟩

end BitReaderBE
